import Mathlib

/-!
Verification of the theoc metrics engine (src/theoc/metrics.py) against its
specification.  The Python functions are shallowly embedded over rational
numbers: numpy float arrays become lists of rationals, fallible operations
return Except values carrying the Python error condition they raise.
-/

namespace Theoc

/-- Error conditions of the Python runtime that the metrics code can raise. -/
inductive PyErr
  | valueError
  | indexError
  | attributeError
  | nameError
  deriving DecidableEq, Repr

/-- Sign of a real (rational) number, as computed by numpy sign. -/
def npSign (q : ℚ) : ℚ := if q < 0 then -1 else if q = 0 then 0 else 1

/-- Consecutive differences of a one-dimensional array, as computed by
numpy diff: element i is x[i+1] - x[i]. -/
def npDiff (xs : List ℚ) : List ℚ := List.zipWith (fun a b => b - a) xs xs.tail

/-- A numpy array: a shape together with the flattened data.  Only the number
of axes matters for the dimension check in change_direction. -/
structure PyArray where
  shape : List ℕ
  data : List ℚ

/-- Embeds metrics.change_direction: raises ValueError (the InvalidShape
condition) unless the input is one-dimensional, otherwise returns the sign of
the consecutive differences. -/
def change_direction (x : PyArray) : Except PyErr (List ℚ) :=
  if x.shape.length ≠ 1 then .error .valueError
  else .ok ((npDiff x.data).map npSign)

/-- Positions of the nonzero entries of a one-dimensional array: the single
index array inside the tuple returned by numpy nonzero. -/
def npNonzero (d : List ℚ) : List ℕ :=
  (List.range d.length).filter fun i => decide (d.getD i 0 ≠ 0)

/-- Integer fancy indexing a[idx] of a one-dimensional array with the index
tuple returned by nonzero: raises IndexError when an index is out of bounds. -/
def intIndex (a : List ℚ) (idx : List ℕ) : Except PyErr (List ℚ) :=
  if idx.all (fun i => decide (i < a.length)) then .ok (idx.map fun i => a.getD i 0)
  else .error .indexError

/-- numpy logical_not applied to the tuple produced by nonzero on a
one-dimensional array: the one-element tuple is coerced to an integer array of
shape (1, c), so the result is a boolean array of shape (1, c) that is True
exactly where the stored index value is 0. -/
def logicalNotIdxTuple (idx : List ℕ) : List (List Bool) :=
  [idx.map fun i => decide (i = 0)]

/-- Indexing a one-dimensional array with a two-dimensional boolean mask: a
boolean index consumes as many axes as its number of dimensions, so numpy
raises IndexError (too many indices) regardless of the mask contents. -/
def boolIndex2d (_a : List ℚ) (_mask : List (List Bool)) : Except PyErr (List ℚ) :=
  .error .indexError

/-- Embeds metrics.signal_discriminations line by line.  The hit and miss
groups come from integer fancy indexing with the nonzero tuple m; the false
alarm and correct reject groups reuse `np.logical_not(m)` where m is still the
index tuple, which yields a boolean array of shape (1, c) that is then used to
index the one-dimensional direction arrays.  The statements
`misses - misses.astype(int)` and `correct_rejects - correct_rejects.astype(int)`
in the source discard their results, so those two groups stay boolean. -/
def signal_discriminations (x_true x : List ℚ) :
    Except PyErr (List ℤ × List Bool × List ℤ × List Bool) :=
  Except.bind (change_direction ⟨[x_true.length], x_true⟩) fun d_true =>
  Except.bind (change_direction ⟨[x.length], x⟩) fun d =>
  let m := npNonzero d_true
  Except.bind (intIndex d_true m) fun dtm =>
  Except.bind (intIndex d m) fun dm =>
  let hits := List.zipWith (fun a b => decide (a = b)) dtm dm
  let misses := hits.map (fun b => !b)
  let m2 := logicalNotIdxTuple m
  Except.bind (boolIndex2d d_true m2) fun dtm2 =>
  Except.bind (boolIndex2d d m2) fun dm2 =>
  let false_alarms := List.zipWith (fun a b => decide (a = b)) dtm2 dm2
  let correct_rejects := false_alarms.map (fun b => !b)
  let hitsInt := hits.map (fun b => if b then (1 : ℤ) else 0)
  let faInt := false_alarms.map (fun b => if b then (1 : ℤ) else 0)
  Except.ok (hitsInt, misses, faInt, correct_rejects)

theorem intIndex_bind {β : Type} (a : List ℚ) (idx : List ℕ)
    (k : List ℚ → Except PyErr β) (hk : ∀ v, k v = .error .indexError) :
    Except.bind (intIndex a idx) k = .error .indexError := by
  unfold intIndex
  split
  · exact hk _
  · rfl

theorem change_direction_on_1d (xs : List ℚ) :
    change_direction ⟨[xs.length], xs⟩ = .ok ((npDiff xs).map npSign) := by
  simp [change_direction]

/-- Whatever the two input series are, signal_discriminations raises
IndexError: the chain reaches the two-dimensional boolean index (or already
fails inside the second integer fancy index when the test series is shorter
than the reference). -/
theorem signal_discriminations_raises (x_true x : List ℚ) :
    signal_discriminations x_true x = .error .indexError := by
  unfold signal_discriminations
  rw [change_direction_on_1d, change_direction_on_1d]
  show Except.bind (intIndex _ _) _ = _
  apply intIndex_bind
  intro dtm
  apply intIndex_bind
  intro dm
  rfl

/-- C1: the claimed partition of every direction index into the hit-or-miss
group and the false-alarm-or-correct-reject group fails on the code: the
complementary mask is numpy logical_not of the nonzero index tuple, a boolean
array of shape (1, c), and indexing the one-dimensional direction arrays with
it raises IndexError on every input, so signal_discriminations never returns
the four groups at all. -/
theorem signal_discriminations_always_indexError (x_true x : List ℚ) :
    signal_discriminations x_true x = .error .indexError :=
  signal_discriminations_raises x_true x

/-- Mean of an integer array, as a rational.  numpy mean of an empty array is
NaN; the rational model returns 0 there, a branch no theorem depends on. -/
def npMeanInt (xs : List ℤ) : ℚ := (xs.sum : ℚ) / xs.length

/-- Mean of a boolean array: booleans average as 0 and 1. -/
def npMeanBool (bs : List Bool) : ℚ := ((bs.countP id : ℕ) : ℚ) / bs.length

/-- Truth value of a one-dimensional boolean array, as taken by a Python if
statement: a single element yields that element, any other length raises an
ambiguous-truth-value error. -/
def pyTruth : List Bool → Except PyErr Bool
  | [b] => .ok b
  | _ => .error .valueError

/-- A numpy value that is either a scalar or a one-dimensional array. -/
inductive Val
  | scal (q : ℚ)
  | arr (xs : List ℚ)

/-- Comparing a numpy value with a scalar inside a Python if: a scalar
compares directly, an array produces a boolean array whose truth value is
taken. -/
def valEqTruth (v : Val) (q : ℚ) : Except PyErr Bool :=
  match v with
  | .scal s => .ok (decide (s = q))
  | .arr xs => pyTruth (xs.map fun s => decide (s = q))

/-- Applies the inverse normal CDF Z to a numpy value, elementwise on
arrays. -/
def valZ (Z : ℚ → ℝ) : Val → ℝ ⊕ List ℝ
  | .scal q => .inl (Z q)
  | .arr xs => .inr (xs.map Z)

/-- Subtracts a scalar from a numpy scalar-or-array value, elementwise on
arrays. -/
def valSubScalar : ℝ ⊕ List ℝ → ℝ → ℝ ⊕ List ℝ
  | .inl a, b => .inl (a - b)
  | .inr xs, b => .inr (xs.map fun a => a - b)

/-- Embeds metrics.d_prime.  The inverse standard normal CDF norm.ppf is an
external scipy function, taken as the parameter Z.  The source divides the
scalar hit by the boolean array misses when forming hit_rate, so hit_rate
starts out as an array; rational division is total where float division of the
source would produce non-finite values, in branches no theorem reaches. -/
def d_prime (Z : ℚ → ℝ) (x_true x : List ℚ) : Except PyErr (ℝ ⊕ List ℝ) := do
  let (hits, misses, false_alarms, correct_rejects) ← signal_discriminations x_true x
  let hit := npMeanInt hits
  let miss := npMeanBool misses
  let fa := npMeanInt false_alarms
  let cr := npMeanBool correct_rejects
  let half_hit := (1 / 2 : ℚ) / (hit + miss)
  let half_fa := (1 / 2 : ℚ) / (fa + cr)
  let hit_rate0 : List ℚ := misses.map fun b => hit / (hit + if b then 1 else 0)
  let sat1 ← pyTruth (hit_rate0.map fun q => decide (q = 1))
  let hr1 : Val := if sat1 then .scal (1 - half_hit) else .arr hit_rate0
  let sat0 ← valEqTruth hr1 0
  let hr2 : Val := if sat0 then .scal half_hit else hr1
  let fa_rate0 := fa / (fa + cr)
  let fa_rate1 := if fa_rate0 = 1 then 1 - half_fa else fa_rate0
  let fa_rate2 := if fa_rate1 = 0 then half_fa else fa_rate1
  return valSubScalar (valZ Z hr2) (Z fa_rate2)

/-- C2: the claim that d_prime returns a single finite real fails on the code:
d_prime first calls signal_discriminations, which raises IndexError on every
input, including the identical pair, so the half-unit correction and the Z
transform are never reached and no value is returned. -/
theorem d_prime_always_indexError (Z : ℚ → ℝ) (x_true x : List ℚ) :
    d_prime Z x_true x = .error .indexError := by
  unfold d_prime
  rw [signal_discriminations_raises]
  rfl

theorem npDiff_length (xs : List ℚ) : (npDiff xs).length = xs.length - 1 := by
  unfold npDiff
  rw [List.length_zipWith, List.length_tail]
  exact Nat.min_eq_right (Nat.sub_le _ _)

theorem npSign_cases (q : ℚ) : npSign q = -1 ∨ npSign q = 0 ∨ npSign q = 1 := by
  unfold npSign
  split
  · exact Or.inl rfl
  split
  · exact Or.inr (Or.inl rfl)
  · exact Or.inr (Or.inr rfl)

/-- C4: change_direction fails with the InvalidShape condition (ValueError)
exactly when its input is not one-dimensional; on every one-dimensional input
it returns the sign of the consecutive differences, a sequence one shorter
than the input whose every element is -1, 0 or 1. -/
theorem change_direction_spec (x : PyArray) :
    (change_direction x = .error .valueError ↔ x.shape.length ≠ 1) ∧
    (x.shape.length = 1 → change_direction x = .ok ((npDiff x.data).map npSign)) ∧
    (∀ ds, change_direction x = .ok ds →
      ds.length = x.data.length - 1 ∧ ∀ v ∈ ds, v = -1 ∨ v = 0 ∨ v = 1) := by
  refine ⟨?_, ?_, ?_⟩
  · unfold change_direction
    split
    · simp_all
    · simp_all
  · intro h
    simp [change_direction, h]
  · intro ds hds
    unfold change_direction at hds
    split at hds
    · exact absurd hds (by simp)
    · have hds' : (npDiff x.data).map npSign = ds := by
        injection hds
      subst hds'
      constructor
      · rw [List.length_map, npDiff_length]
      · intro v hv
        rcases List.mem_map.mp hv with ⟨q, _, rfl⟩
        exact npSign_cases q

/-- Witness for change_direction_spec at the concrete one-dimensional array
[1, 5, 5], whose direction sequence is [1, 0]. -/
theorem change_direction_spec_witness :
    change_direction ⟨[3], [1, 5, 5]⟩ = .ok [1, 0] ∧
    ([(1 : ℚ), 0].length = ([(1 : ℚ), 5, 5] : List ℚ).length - 1 ∧
      ∀ v ∈ [(1 : ℚ), 0], v = -1 ∨ v = 0 ∨ v = 1) := by
  have h := change_direction_spec ⟨[3], [(1 : ℚ), 5, 5]⟩
  have hok : change_direction ⟨[3], [(1 : ℚ), 5, 5]⟩ = .ok [1, 0] := by
    have h1 := h.2.1 (by decide)
    rw [h1]
    norm_num [npDiff, npSign]
  exact ⟨hok, h.2.2 [1, 0] hok⟩

/-- Minimum of a list of rationals, as a numpy min/nanmin reduction over the
gathered finite values; 0 on the empty list, a case the source rejects (numpy
raises or warns on an empty reduction) and no theorem below reaches. -/
def listMin : List ℚ → ℚ
  | [] => 0
  | [a] => a
  | a :: b :: t => min a (listMin (b :: t))

/-- Maximum of a list of rationals, the max/nanmax reduction. -/
def listMax : List ℚ → ℚ
  | [] => 0
  | [a] => a
  | a :: b :: t => max a (listMax (b :: t))

theorem listMin_cons (a : ℚ) (l : List ℚ) (h : l ≠ []) :
    listMin (a :: l) = min a (listMin l) := by
  cases l with
  | nil => exact absurd rfl h
  | cons b t => rfl

theorem listMax_cons (a : ℚ) (l : List ℚ) (h : l ≠ []) :
    listMax (a :: l) = max a (listMax l) := by
  cases l with
  | nil => exact absurd rfl h
  | cons b t => rfl

theorem listMin_le (l : List ℚ) : ∀ v ∈ l, listMin l ≤ v := by
  induction l with
  | nil => intro v hv; exact absurd hv (List.not_mem_nil v)
  | cons a t ih =>
    intro v hv
    cases t with
    | nil =>
      rcases List.mem_singleton.mp hv with rfl
      exact le_refl v
    | cons b s =>
      rw [listMin_cons a (b :: s) (by simp)]
      rcases List.mem_cons.mp hv with rfl | hv'
      · exact min_le_left _ _
      · exact le_trans (min_le_right _ _) (ih v hv')

theorem le_listMax (l : List ℚ) : ∀ v ∈ l, v ≤ listMax l := by
  induction l with
  | nil => intro v hv; exact absurd hv (List.not_mem_nil v)
  | cons a t ih =>
    intro v hv
    cases t with
    | nil =>
      rcases List.mem_singleton.mp hv with rfl
      exact le_refl v
    | cons b s =>
      rw [listMax_cons a (b :: s) (by simp)]
      rcases List.mem_cons.mp hv with rfl | hv'
      · exact le_max_left _ _
      · exact le_trans (ih v hv') (le_max_right _ _)

theorem listMin_mem (l : List ℚ) (h : l ≠ []) : listMin l ∈ l := by
  induction l with
  | nil => exact absurd rfl h
  | cons a t ih =>
    cases t with
    | nil => exact List.mem_singleton.mpr rfl
    | cons b s =>
      rw [listMin_cons a (b :: s) (by simp)]
      rcases min_cases a (listMin (b :: s)) with ⟨hm, _⟩ | ⟨hm, _⟩
      · rw [hm]; exact List.mem_cons_self a _
      · rw [hm]; exact List.mem_cons_of_mem a (ih (by simp))

theorem listMax_mem (l : List ℚ) (h : l ≠ []) : listMax l ∈ l := by
  induction l with
  | nil => exact absurd rfl h
  | cons a t ih =>
    cases t with
    | nil => exact List.mem_singleton.mpr rfl
    | cons b s =>
      rw [listMax_cons a (b :: s) (by simp)]
      rcases max_cases a (listMax (b :: s)) with ⟨hm, _⟩ | ⟨hm, _⟩
      · rw [hm]; exact List.mem_cons_self a _
      · rw [hm]; exact List.mem_cons_of_mem a (ih (by simp))

/-- Embeds metrics.normalize: elementwise (x - nanmin x) / (nanmax x - nanmin x).
When the observed range is zero every numerator is zero as well, so the float
division of the source is 0/0, which propagates NaN, modelled as none. -/
def normalize (x : List ℚ) : List (Option ℚ) :=
  let mn := listMin x
  let mx := listMax x
  x.map fun v => if mx - mn = 0 then none else some ((v - mn) / (mx - mn))

/-- C9: on any series whose values have a nonzero range, normalize maps the
observed minimum to 0 and the observed maximum to 1 and scales every element
into [0, 1]; when all values are equal it does not fail explicitly but
propagates NaN through the zero-range division. -/
theorem normalize_spec (x : List ℚ) (hne : x ≠ []) :
    (listMin x < listMax x →
      some 0 ∈ normalize x ∧ some 1 ∈ normalize x ∧
      ∀ o ∈ normalize x, ∃ q, o = some q ∧ 0 ≤ q ∧ q ≤ 1) ∧
    (listMin x = listMax x → ∀ o ∈ normalize x, o = none) := by
  constructor
  · intro hlt
    have hrange : listMax x - listMin x ≠ 0 := sub_ne_zero.mpr (ne_of_gt hlt)
    have hrpos : 0 < listMax x - listMin x := sub_pos.mpr hlt
    have hmap : normalize x
        = x.map fun v => some ((v - listMin x) / (listMax x - listMin x)) := by
      unfold normalize
      exact List.map_congr_left fun v _ => if_neg hrange
    refine ⟨?_, ?_, ?_⟩
    · rw [hmap]
      refine List.mem_map.mpr ⟨listMin x, listMin_mem x hne, ?_⟩
      rw [sub_self, zero_div]
    · rw [hmap]
      refine List.mem_map.mpr ⟨listMax x, listMax_mem x hne, ?_⟩
      rw [div_self hrange]
    · intro o ho
      rw [hmap] at ho
      rcases List.mem_map.mp ho with ⟨v, hv, rfl⟩
      refine ⟨_, rfl, ?_, ?_⟩
      · exact div_nonneg (sub_nonneg.mpr (listMin_le x v hv)) hrpos.le
      · rw [div_le_one hrpos]
        exact sub_le_sub_right (le_listMax x v hv) _
  · intro heq o ho
    unfold normalize at ho
    rcases List.mem_map.mp ho with ⟨v, _, rfl⟩
    rw [heq, sub_self]
    rfl

/-- Witness for normalize_spec: the series [0, 2, 1] has range 2 and scales
into [0, 1]; the constant series [5, 5] propagates NaN everywhere. -/
theorem normalize_spec_witness :
    (some 0 ∈ normalize [0, 2, 1] ∧ some 1 ∈ normalize [0, 2, 1] ∧
      ∀ o ∈ normalize [(0 : ℚ), 2, 1], ∃ q, o = some q ∧ 0 ≤ q ∧ q ≤ 1) ∧
    (∀ o ∈ normalize [(5 : ℚ), 5], o = none) := by
  constructor
  · exact (normalize_spec [0, 2, 1] (by simp)).1 (by norm_num [listMin, listMax])
  · exact (normalize_spec [5, 5] (by simp)).2 (by norm_num [listMin, listMax])

/-- A floating-point datum: a finite value (a rational) or one of the
non-finite values that numpy isfinite filters out. -/
inductive FVal
  | fin (q : ℚ)
  | nan
  | inf
  | ninf
  deriving DecidableEq, Repr

/-- The finite entries of a series, in order: x[np.isfinite(x)]. -/
def finitePart (x : List FVal) : List ℚ :=
  x.filterMap fun v => match v with | .fin q => some q | _ => none

/-- Bin index of a value under an m-bin equal-width histogram spanning
[mn, mx]: a value falls in bin floor((v - mn) * m / (mx - mn)), except that
the right edge belongs to the last bin; when the observed range is the single
point v, numpy spans [v - 0.5, v + 0.5] instead and every value lands in bin
floor(m / 2). -/
def binIndex (mn mx : ℚ) (m : ℕ) (v : ℚ) : ℕ :=
  if mn < mx then min (Int.toNat ⌊(v - mn) * m / (mx - mn)⌋) (m - 1)
  else m / 2

/-- Histogram bin counts of a list of finite values, np.histogram(xs, bins=m)[0]:
for each of the m bins, the count of values whose bin index is that bin. -/
def histCounts (xs : List ℚ) (m : ℕ) : List ℕ :=
  (List.range m).map fun i =>
    xs.countP fun v => decide (binIndex (listMin xs) (listMax xs) m v = i)

/-- Embeds metrics.discrete_dist: histogram counts of the finite entries over
m equal-width bins spanning their observed range, divided by the total count.
The source raises for m = 0 and produces NaNs when no entry is finite; the
total rational model returns the all-zero list there, cases outside every
claim below. -/
def discrete_dist (x : List FVal) (m : ℕ) : List ℚ :=
  let counts := histCounts (finitePart x) m
  counts.map fun c : ℕ => (c : ℚ) / (counts.sum : ℚ)

theorem binIndex_lt (mn mx : ℚ) (m : ℕ) (hm : 1 ≤ m) (v : ℚ) :
    binIndex mn mx m v < m := by
  unfold binIndex
  split
  · exact lt_of_le_of_lt (min_le_right _ _) (Nat.sub_lt hm one_pos)
  · exact Nat.div_lt_self hm one_lt_two

theorem range_map_sum {M : Type} [AddCommMonoid M] (n : ℕ) (f : ℕ → M) :
    ((List.range n).map f).sum = ∑ i in Finset.range n, f i := by
  induction n with
  | zero => simp
  | succ n ih =>
    rw [List.range_succ, List.map_append, List.sum_append, Finset.sum_range_succ, ih]
    simp

theorem sum_countP_classify {α : Type} (xs : List α) (m : ℕ) (f : α → ℕ)
    (hf : ∀ v ∈ xs, f v < m) :
    (∑ i in Finset.range m, xs.countP fun v => decide (f v = i)) = xs.length := by
  induction xs with
  | nil => simp
  | cons a t ih =>
    have hat : ∀ v ∈ t, f v < m := fun v hv => hf v (List.mem_cons_of_mem a hv)
    simp only [List.countP_cons]
    rw [Finset.sum_add_distrib, ih hat]
    have hind : (∑ i in Finset.range m,
        if (decide (f a = i)) = true then 1 else 0) = 1 := by
      simp only [decide_eq_true_eq]
      rw [Finset.sum_ite_eq (Finset.range m) (f a) fun _ => 1]
      simp [Finset.mem_range.mpr (hf a (List.mem_cons_self a t))]
    rw [hind, List.length_cons]

theorem histCounts_length (xs : List ℚ) (m : ℕ) : (histCounts xs m).length = m := by
  unfold histCounts
  rw [List.length_map, List.length_range]

theorem histCounts_sum (xs : List ℚ) (m : ℕ) (hm : 1 ≤ m) :
    (histCounts xs m).sum = xs.length := by
  unfold histCounts
  rw [range_map_sum]
  exact sum_countP_classify xs m _ fun v _ => binIndex_lt _ _ m hm v

theorem sum_map_div (l : List ℕ) (c : ℚ) :
    (l.map fun a : ℕ => (a : ℚ) / c).sum = (l.sum : ℚ) / c := by
  induction l with
  | nil => simp
  | cons a t ih =>
    rw [List.map_cons, List.sum_cons, ih, List.sum_cons]
    push_cast
    rw [add_div]

theorem discrete_dist_nonneg (x : List FVal) (m : ℕ) :
    ∀ p ∈ discrete_dist x m, 0 ≤ p := by
  intro p hp
  unfold discrete_dist at hp
  rcases List.mem_map.mp hp with ⟨c, _, rfl⟩
  exact div_nonneg (Nat.cast_nonneg c) (Nat.cast_nonneg _)

theorem discrete_dist_sum (x : List FVal) (m : ℕ) (hm : 1 ≤ m)
    (hx : finitePart x ≠ []) : (discrete_dist x m).sum = 1 := by
  have hlen : (finitePart x).length ≠ 0 :=
    fun h => hx (List.length_eq_zero.mp h)
  have htot : ((histCounts (finitePart x) m).sum : ℚ) ≠ 0 := by
    rw [histCounts_sum _ _ hm]
    exact_mod_cast hlen
  unfold discrete_dist
  rw [sum_map_div, div_self htot]

theorem discrete_dist_len (x : List FVal) (m : ℕ) :
    (discrete_dist x m).length = m := by
  unfold discrete_dist
  rw [List.length_map, histCounts_length]

/-- C10: discrete_dist keeps empty bins as zero-probability entries, returning
a distribution of length exactly m whatever subset of bins is occupied. -/
theorem discrete_dist_length (x : List FVal) (m : ℕ) (hm : 1 ≤ m)
    (hx : finitePart x ≠ []) : (discrete_dist x m).length = m := by
  unfold discrete_dist
  rw [List.length_map, histCounts_length]

/-- Witness for discrete_dist_length: three entries, one of them NaN, over
four bins give a distribution of length four. -/
theorem discrete_dist_length_witness :
    (discrete_dist [FVal.fin 1, FVal.nan, FVal.fin 2] 4).length = 4 :=
  discrete_dist_length [FVal.fin 1, FVal.nan, FVal.fin 2] 4 (by decide) (by decide)

/-- C5: for a positive bin count and at least one finite entry, discrete_dist
drops the non-finite entries, bins the rest over their observed range, and
returns non-negative probabilities of total mass exactly one, of size at
most m. -/
theorem discrete_dist_prob (x : List FVal) (m : ℕ) (hm : 1 ≤ m)
    (hx : finitePart x ≠ []) :
    (∀ p ∈ discrete_dist x m, 0 ≤ p) ∧ (discrete_dist x m).sum = 1 ∧
      (discrete_dist x m).length ≤ m :=
  ⟨discrete_dist_nonneg x m, discrete_dist_sum x m hm hx,
    le_of_eq (discrete_dist_len x m)⟩

/-- Witness for discrete_dist_prob at [1, NaN, 2] with two bins: probabilities
are non-negative, sum to one, and number at most two. -/
theorem discrete_dist_prob_witness :
    (∀ p ∈ discrete_dist [FVal.fin 1, FVal.nan, FVal.fin 2] 2, 0 ≤ p) ∧
      (discrete_dist [FVal.fin 1, FVal.nan, FVal.fin 2] 2).sum = 1 ∧
      (discrete_dist [FVal.fin 1, FVal.nan, FVal.fin 2] 2).length ≤ 2 :=
  discrete_dist_prob [FVal.fin 1, FVal.nan, FVal.fin 2] 2 (by decide) (by decide)

/-- Embeds metrics.discrete_entropy: the discrete distribution with its zero
entries dropped, summed as -p * logfn p, divided by logfn m when normalize is
set.  The log function (numpy log10 by default) is an external real function,
taken as the parameter logfn, so the result lives in ℝ. -/
noncomputable def discrete_entropy (x : List FVal) (m : ℕ) (logfn : ℝ → ℝ)
    (normalize : Bool) : ℝ :=
  let dist := (discrete_dist x m).filter fun p => decide (p ≠ 0)
  let h := -((dist.map fun p : ℚ => (p : ℝ) * logfn (p : ℝ)).sum)
  if normalize then h / logfn (m : ℝ) else h

theorem filter_ne_zero_sum (l : List ℚ) :
    (l.filter fun p => decide (p ≠ 0)).sum = l.sum := by
  induction l with
  | nil => rfl
  | cons a t ih =>
    rw [List.filter_cons]
    by_cases ha : a = 0
    · rw [if_neg (by simp [ha]), ih, List.sum_cons, ha, zero_add]
    · rw [if_pos (by simpa using ha), List.sum_cons, List.sum_cons, ih]

theorem list_sum_nonpos (l : List ℝ) (h : ∀ x ∈ l, x ≤ 0) : l.sum ≤ 0 := by
  induction l with
  | nil => simp
  | cons a t ih =>
    rw [List.sum_cons]
    have h1 := h a (List.mem_cons_self a t)
    have h2 := ih fun x hx => h x (List.mem_cons_of_mem a hx)
    linarith

theorem list_sum_getD {M : Type} [AddCommMonoid M] (l : List M) :
    l.sum = ∑ i in Finset.range l.length, l.getD i 0 := by
  induction l with
  | nil => simp
  | cons a t ih =>
    rw [List.sum_cons, List.length_cons, Finset.sum_range_succ', ih]
    have hsh : ∀ i : ℕ, (a :: t).getD (i + 1) 0 = t.getD i 0 := by
      intro i
      simp [List.getD]
    simp only [hsh]
    have h0 : (a :: t).getD 0 0 = a := rfl
    rw [h0, add_comm]

theorem map_getD_cast_log (l : List ℚ) (g : ℝ → ℝ) (i : ℕ) (h : i < l.length) :
    (l.map fun p : ℚ => (p : ℝ) * g (p : ℝ)).getD i 0
      = ((l.getD i 0 : ℚ) : ℝ) * g ((l.getD i 0 : ℚ) : ℝ) := by
  have hlen : i < (l.map fun p : ℚ => (p : ℝ) * g (p : ℝ)).length := by
    simpa using h
  rw [List.getD_eq_getElem _ _ hlen, List.getD_eq_getElem _ _ h, List.getElem_map]

/-- Gibbs bound through Jensen: a finite probability vector of K positive
entries has natural-log entropy at most log K. -/
theorem neg_sum_mul_log_le (l : List ℚ) (hpos : ∀ p ∈ l, 0 < p)
    (hsum : l.sum = 1) :
    -((l.map fun p : ℚ => (p : ℝ) * Real.log (p : ℝ)).sum)
      ≤ Real.log l.length := by
  have hne : l ≠ [] := by
    intro h
    rw [h] at hsum
    simp at hsum
  have hKpos : 0 < l.length := List.length_pos.mpr hne
  have hgd : ∀ i ∈ Finset.range l.length, l.getD i 0 ∈ l := by
    intro i hi
    rw [List.getD_eq_getElem l 0 (Finset.mem_range.mp hi)]
    exact List.getElem_mem _
  have hwpos : ∀ i ∈ Finset.range l.length, (0 : ℝ) < ((l.getD i 0 : ℚ) : ℝ) := by
    intro i hi
    exact_mod_cast hpos _ (hgd i hi)
  have hwsum : ∑ i in Finset.range l.length, ((l.getD i 0 : ℚ) : ℝ) = 1 := by
    have hq : ∑ i in Finset.range l.length, l.getD i 0 = 1 := by
      rw [← list_sum_getD, hsum]
    exact_mod_cast congrArg (fun q : ℚ => (q : ℝ)) hq
  have hjen : ∑ i in Finset.range l.length,
        ((l.getD i 0 : ℚ) : ℝ) • Real.log (((l.getD i 0 : ℚ) : ℝ)⁻¹)
      ≤ Real.log (∑ i in Finset.range l.length,
        ((l.getD i 0 : ℚ) : ℝ) • (((l.getD i 0 : ℚ) : ℝ)⁻¹)) := by
    refine strictConcaveOn_log_Ioi.concaveOn.le_map_sum
      (fun i hi => (hwpos i hi).le) hwsum fun i hi => Set.mem_Ioi.mpr ?_
    exact inv_pos.mpr (hwpos i hi)
  have hinv : ∑ i in Finset.range l.length,
      ((l.getD i 0 : ℚ) : ℝ) • (((l.getD i 0 : ℚ) : ℝ)⁻¹) = (l.length : ℝ) := by
    rw [Finset.sum_congr rfl fun i hi => ?_]
    · rw [Finset.sum_const, Finset.card_range, nsmul_eq_mul, mul_one]
    · rw [smul_eq_mul, mul_inv_cancel₀ (ne_of_gt (hwpos i hi))]
  have hlhs : -((l.map fun p : ℚ => (p : ℝ) * Real.log (p : ℝ)).sum)
      = ∑ i in Finset.range l.length,
          ((l.getD i 0 : ℚ) : ℝ) • Real.log (((l.getD i 0 : ℚ) : ℝ)⁻¹) := by
    rw [list_sum_getD (l.map fun p : ℚ => (p : ℝ) * Real.log (p : ℝ)),
      List.length_map, ← Finset.sum_neg_distrib]
    refine Finset.sum_congr rfl fun i hi => ?_
    rw [map_getD_cast_log l Real.log i (Finset.mem_range.mp hi), smul_eq_mul,
      Real.log_inv, mul_neg]
  rw [hlhs]
  calc ∑ i in Finset.range l.length,
        ((l.getD i 0 : ℚ) : ℝ) • Real.log (((l.getD i 0 : ℚ) : ℝ)⁻¹)
      ≤ Real.log (∑ i in Finset.range l.length,
        ((l.getD i 0 : ℚ) : ℝ) • (((l.getD i 0 : ℚ) : ℝ)⁻¹)) := hjen
    _ = Real.log l.length := by rw [hinv]

theorem sum_map_div_real (l : List ℚ) (f : ℚ → ℝ) (c : ℝ) :
    (l.map fun p => f p / c).sum = (l.map f).sum / c := by
  induction l with
  | nil => simp
  | cons a t ih =>
    rw [List.map_cons, List.sum_cons, ih, List.map_cons, List.sum_cons, add_div]

/-- C6: the normalized discrete entropy with the default base-10 logarithm
lies in [0, 1] for every bin count of at least two and every series with a
finite entry: the entropy sums only over the nonzero-probability bins and is
divided by log10 of the bin count. -/
theorem discrete_entropy_normalized_bounds (x : List FVal) (m : ℕ)
    (hm : 2 ≤ m) (hx : finitePart x ≠ []) :
    0 ≤ discrete_entropy x m (Real.logb 10) true ∧
      discrete_entropy x m (Real.logb 10) true ≤ 1 := by
  have hm1 : 1 ≤ m := le_trans (by norm_num) hm
  have hnn := discrete_dist_nonneg x m
  have hsum := discrete_dist_sum x m hm1 hx
  set dist := (discrete_dist x m).filter fun p => decide (p ≠ 0) with hdist
  have hpos : ∀ p ∈ dist, 0 < p := by
    intro p hp
    rcases List.mem_filter.mp hp with ⟨hmem, hne⟩
    exact lt_of_le_of_ne (hnn p hmem) (Ne.symm (by simpa using hne))
  have hle1 : ∀ p ∈ dist, p ≤ 1 := by
    intro p hp
    rcases List.mem_filter.mp hp with ⟨hmem, _⟩
    calc p ≤ (discrete_dist x m).sum := List.single_le_sum hnn p hmem
      _ = 1 := hsum
  have hsum' : dist.sum = 1 := by
    rw [hdist, filter_ne_zero_sum, hsum]
  have hKle : dist.length ≤ m := by
    rw [hdist]
    calc ((discrete_dist x m).filter fun p => decide (p ≠ 0)).length
        ≤ (discrete_dist x m).length := List.length_filter_le _ _
      _ = m := discrete_dist_len x m
  have hKpos : 0 < dist.length := by
    refine Nat.pos_of_ne_zero fun hz => ?_
    rw [List.length_eq_zero.mp hz] at hsum'
    simp at hsum'
  have hL : (0 : ℝ) < Real.log 10 := Real.log_pos (by norm_num)
  have hlogm : (0 : ℝ) < Real.log m := by
    refine Real.log_pos ?_
    exact_mod_cast hm
  set S := (dist.map fun p : ℚ => (p : ℝ) * Real.log (p : ℝ)).sum with hS
  have hSnonpos : S ≤ 0 := by
    refine list_sum_nonpos _ ?_
    intro v hv
    rcases List.mem_map.mp hv with ⟨p, hp, rfl⟩
    have h1 : (0 : ℝ) ≤ (p : ℝ) := by exact_mod_cast (hpos p hp).le
    have h2 : Real.log (p : ℝ) ≤ 0 :=
      Real.log_nonpos (by exact_mod_cast (hpos p hp).le) (by exact_mod_cast hle1 p hp)
    exact mul_nonpos_iff.mpr (Or.inl ⟨h1, h2⟩)
  have hSle : -S ≤ Real.log m := by
    calc -S ≤ Real.log dist.length := neg_sum_mul_log_le dist hpos hsum'
      _ ≤ Real.log m := by
        refine Real.log_le_log ?_ ?_
        · exact_mod_cast hKpos
        · exact_mod_cast hKle
  have hval : discrete_entropy x m (Real.logb 10) true = -S / Real.log m := by
    have hconv : (dist.map fun p : ℚ => (p : ℝ) * Real.logb 10 (p : ℝ)).sum
        = S / Real.log 10 := by
      rw [hS, ← sum_map_div_real]
      refine congrArg List.sum (List.map_congr_left fun p _ => ?_)
      rw [Real.logb, mul_div_assoc]
    simp only [discrete_entropy, if_true]
    rw [← hdist, hconv, Real.logb]
    have hL0 : Real.log 10 ≠ 0 := ne_of_gt hL
    have hm0 : Real.log (m : ℝ) ≠ 0 := ne_of_gt hlogm
    field_simp
    ring
  rw [hval]
  constructor
  · exact div_nonneg (by linarith) hlogm.le
  · rw [div_le_one hlogm]
    exact hSle

/-- Witness for discrete_entropy_normalized_bounds at the two-point series
[0, 1] with two bins. -/
theorem discrete_entropy_normalized_bounds_witness :
    0 ≤ discrete_entropy [FVal.fin 0, FVal.fin 1] 2 (Real.logb 10) true ∧
      discrete_entropy [FVal.fin 0, FVal.fin 1] 2 (Real.logb 10) true ≤ 1 :=
  discrete_entropy_normalized_bounds [FVal.fin 0, FVal.fin 1] 2
    (by decide) (by decide)

theorem finitePart_append (x y : List FVal) :
    finitePart (x ++ y) = finitePart x ++ finitePart y := by
  unfold finitePart
  exact List.filterMap_append x y _

theorem listMin_append (a b : List ℚ) (ha : a ≠ []) (hb : b ≠ []) :
    listMin (a ++ b) = min (listMin a) (listMin b) := by
  induction a with
  | nil => exact absurd rfl ha
  | cons x t ih =>
    cases t with
    | nil =>
      rw [List.singleton_append, listMin_cons x b hb]
      rfl
    | cons y s =>
      rw [List.cons_append, listMin_cons x ((y :: s) ++ b) (by simp),
        ih (by simp), listMin_cons x (y :: s) (by simp), min_assoc]

theorem listMax_append (a b : List ℚ) (ha : a ≠ []) (hb : b ≠ []) :
    listMax (a ++ b) = max (listMax a) (listMax b) := by
  induction a with
  | nil => exact absurd rfl ha
  | cons x t ih =>
    cases t with
    | nil =>
      rw [List.singleton_append, listMax_cons x b hb]
      rfl
    | cons y s =>
      rw [List.cons_append, listMax_cons x ((y :: s) ++ b) (by simp),
        ih (by simp), listMax_cons x (y :: s) (by simp), max_assoc]

theorem listMin_swap (a b : List ℚ) : listMin (a ++ b) = listMin (b ++ a) := by
  by_cases ha : a = []
  · rw [ha, List.nil_append, List.append_nil]
  · by_cases hb : b = []
    · rw [hb, List.nil_append, List.append_nil]
    · rw [listMin_append a b ha hb, listMin_append b a hb ha, min_comm]

theorem listMax_swap (a b : List ℚ) : listMax (a ++ b) = listMax (b ++ a) := by
  by_cases ha : a = []
  · rw [ha, List.nil_append, List.append_nil]
  · by_cases hb : b = []
    · rw [hb, List.nil_append, List.append_nil]
    · rw [listMax_append a b ha hb, listMax_append b a hb ha, max_comm]

theorem histCounts_swap (a b : List ℚ) (m : ℕ) :
    histCounts (a ++ b) m = histCounts (b ++ a) m := by
  unfold histCounts
  rw [listMin_swap, listMax_swap]
  refine List.map_congr_left fun i _ => ?_
  rw [List.countP_append, List.countP_append, Nat.add_comm]

theorem discrete_dist_append_swap (x y : List FVal) (m : ℕ) :
    discrete_dist (x ++ y) m = discrete_dist (y ++ x) m := by
  unfold discrete_dist
  rw [finitePart_append, finitePart_append, histCounts_swap]

theorem discrete_entropy_append_swap (x y : List FVal) (m : ℕ)
    (logfn : ℝ → ℝ) (b : Bool) :
    discrete_entropy (x ++ y) m logfn b = discrete_entropy (y ++ x) m logfn b := by
  unfold discrete_entropy
  rw [discrete_dist_append_swap]

/-- Embeds metrics.discrete_mutual_information: H(x) + H(y) - H(concat(x, y)),
where the joint term discretizes the pooled values; the inner entropies are
taken with the source's default keyword normalize=True, and the optional outer
normalization divides by sqrt(H(x) * H(y)). -/
noncomputable def discrete_mutual_information (x y : List FVal) (m : ℕ)
    (logfn : ℝ → ℝ) (normalize : Bool) : ℝ :=
  let h_x := discrete_entropy x m logfn true
  let h_y := discrete_entropy y m logfn true
  let h_xy := discrete_entropy (x ++ y) m logfn true
  let mi_xy := (h_x + h_y) - h_xy
  if normalize then mi_xy / Real.sqrt (h_x * h_y) else mi_xy

/-- C7: discrete mutual information is symmetric in its two data arguments,
exactly: the joint term pools the two series by concatenation, and the
histogram of a pooled list does not depend on the concatenation order. -/
theorem discrete_mutual_information_symm (x y : List FVal) (m : ℕ)
    (logfn : ℝ → ℝ) :
    discrete_mutual_information x y m logfn false
      = discrete_mutual_information y x m logfn false := by
  simp only [discrete_mutual_information, Bool.false_eq_true, if_false]
  rw [discrete_entropy_append_swap]
  ring

/-- Squared Euclidean distance between two rows.  sklearn NearestNeighbors
orders neighbors by Euclidean distance; the square root is strictly monotone,
so the neighbor ordering, and hence which neighbor is the k-th nearest, is the
ordering of these squared distances, which stay rational. -/
def sqDist (p q : List ℚ) : ℚ := (List.zipWith (fun a b => (a - b) ^ 2) p q).sum

/-- Embeds metrics.nearest_distances: fits a (k+1)-nearest-neighbors index on
the rows of X, queries it with the rows of X themselves so that the first
neighbor of each row is the row itself, and keeps the last column d[:, -1] of
the ascending distance matrix, the distance to the (k+1)-th nearest neighbor
including the queried point.  Distances are reported squared (see sqDist);
sklearn raises when fewer than k + 1 rows exist. -/
def nearest_distances (X : List (List ℚ)) (k : ℕ) : Except PyErr (List ℚ) :=
  if X.length < k + 1 then .error .valueError
  else .ok (X.map fun r =>
    (List.insertionSort (· ≤ ·) (X.map fun s => sqDist r s)).getD k 0)

theorem sqDist_self (r : List ℚ) : sqDist r r = 0 := by
  induction r with
  | nil => rfl
  | cons a t ih =>
    unfold sqDist at ih ⊢
    rw [List.zipWith_cons_cons, List.sum_cons, ih, sub_self]
    norm_num

theorem sqDist_nonneg (p q : List ℚ) : 0 ≤ sqDist p q := by
  unfold sqDist
  induction p generalizing q with
  | nil => simp
  | cons a t ih =>
    cases q with
    | nil => simp
    | cons b s =>
      rw [List.zipWith_cons_cons, List.sum_cons]
      have h1 : (0 : ℚ) ≤ (a - b) ^ 2 := sq_nonneg _
      have h2 := ih s
      linarith

theorem perm_getD_cons_eraseIdx {α : Type} (d : α) :
    ∀ (X : List α) (i : ℕ), i < X.length →
      List.Perm X (X.getD i d :: X.eraseIdx i) := by
  intro X
  induction X with
  | nil =>
    intro i hi
    simp at hi
  | cons a t ih =>
    intro i hi
    cases i with
    | zero => exact List.Perm.refl _
    | succ i =>
      have hi' : i < t.length := by simpa using hi
      exact (List.Perm.cons a (ih i hi')).trans (List.Perm.swap _ _ _)

theorem sort_self_distances (X : List (List ℚ)) (i : ℕ) (hi : i < X.length) :
    List.insertionSort (· ≤ ·) (X.map fun s => sqDist (X.getD i []) s)
      = 0 :: List.insertionSort (· ≤ ·)
          ((X.eraseIdx i).map fun s => sqDist (X.getD i []) s) := by
  have hperm0 : List.Perm (X.map fun s => sqDist (X.getD i []) s)
      (0 :: (X.eraseIdx i).map fun s => sqDist (X.getD i []) s) := by
    have h := (perm_getD_cons_eraseIdx ([] : List ℚ) X i hi).map
      fun s => sqDist (X.getD i []) s
    rw [List.map_cons, sqDist_self] at h
    exact h
  have hs1 : List.Sorted (· ≤ ·)
      (List.insertionSort (· ≤ ·) (X.map fun s => sqDist (X.getD i []) s)) :=
    List.sorted_insertionSort _ _
  have hs2 : List.Sorted (· ≤ ·) (0 :: List.insertionSort (· ≤ ·)
      ((X.eraseIdx i).map fun s => sqDist (X.getD i []) s)) := by
    rw [List.sorted_cons]
    constructor
    · intro b hb
      have hb' : b ∈ (X.eraseIdx i).map fun s => sqDist (X.getD i []) s :=
        (List.perm_insertionSort _ _).subset hb
      rcases List.mem_map.mp hb' with ⟨s, _, rfl⟩
      exact sqDist_nonneg _ s
    · exact List.sorted_insertionSort _ _
  refine List.eq_of_perm_of_sorted ?_ hs1 hs2
  exact (List.perm_insertionSort _ _).trans
    (hperm0.trans (List.Perm.cons 0 (List.perm_insertionSort _ _).symm))

/-- C8: with pairwise-distinct rows and 1 ≤ k ≤ n - 1, nearest_distances
returns for each row the k-th smallest distance to the other rows: the
self-match, at distance zero, occupies the first of the k + 1 sorted neighbor
distances and is discarded by keeping index k. -/
theorem nearest_distances_spec (X : List (List ℚ)) (k : ℕ)
    (hk : 1 ≤ k) (hkn : k + 1 ≤ X.length)
    (hd : List.Pairwise (fun r s => r ≠ s) X) :
    ∃ L, nearest_distances X k = .ok L ∧ L.length = X.length ∧
      ∀ i, i < X.length → L.getD i 0
        = (List.insertionSort (· ≤ ·)
            ((X.eraseIdx i).map fun s => sqDist (X.getD i []) s)).getD (k - 1) 0 := by
  refine ⟨X.map fun r =>
    (List.insertionSort (· ≤ ·) (X.map fun s => sqDist r s)).getD k 0, ?_, ?_, ?_⟩
  · unfold nearest_distances
    rw [if_neg (by omega)]
  · rw [List.length_map]
  · intro i hi
    have hmaplen : i < (X.map fun r =>
        (List.insertionSort (· ≤ ·) (X.map fun s => sqDist r s)).getD k 0).length := by
      simpa using hi
    rw [List.getD_eq_getElem _ _ hmaplen, List.getElem_map,
      ← List.getD_eq_getElem X ([] : List ℚ) hi, sort_self_distances X i hi]
    obtain ⟨k', rfl⟩ : ∃ k', k = k' + 1 := ⟨k - 1, by omega⟩
    simp [List.getD]

/-- Witness for nearest_distances_spec on three distinct one-dimensional rows
with k = 1. -/
theorem nearest_distances_spec_witness :
    ∃ L, nearest_distances [[(0 : ℚ)], [1], [3]] 1 = .ok L ∧
      L.length = ([[(0 : ℚ)], [1], [3]] : List (List ℚ)).length ∧
      ∀ i, i < ([[(0 : ℚ)], [1], [3]] : List (List ℚ)).length → L.getD i 0
        = (List.insertionSort (· ≤ ·)
            ((([[(0 : ℚ)], [1], [3]] : List (List ℚ)).eraseIdx i).map
              fun s => sqDist (([[(0 : ℚ)], [1], [3]] : List (List ℚ)).getD i []) s)).getD 0 0 :=
  nearest_distances_spec [[0], [1], [3]] 1 (by decide) (by decide) (by decide)

/-- A multivariate sample: the list of its rows. -/
abbrev Sample := List (List ℚ)

/-- numpy hstack over a nonempty list of two-dimensional samples: concatenates
the rows columnwise, raising ValueError when the samples do not all have the
same number of rows (or when the list is empty). -/
def np_hstack (vs : List Sample) : Except PyErr Sample :=
  match vs with
  | [] => .error .valueError
  | v0 :: _ =>
    if vs.all fun v => decide (v.length = v0.length) then
      .ok ((List.range v0.length).map fun i => (vs.map fun v => v.getD i []).flatten)
    else .error .valueError

/-- Embeds metrics.continuous_mutual_information: fewer than two variables
raise AttributeError (the InvalidArgument condition); otherwise the source
builds all_vars = np.hstack(variables) and then evaluates
sum([entropy(X, k=k) for X in variables]) - entropy(all_vars, k=k); the source
parameter variables is a reserved word in Lean and is rendered vars.  The name
entropy is not defined anywhere in the module: the k-nearest-neighbor
estimator copied from the Varoquaux gist was renamed continuous_entropy
without updating this call, so the name lookup raises NameError before any
result is produced. -/
def continuous_mutual_information (vars : List Sample) (_k : ℕ) :
    Except PyErr ℝ :=
  if vars.length < 2 then .error .attributeError
  else Except.bind (np_hstack vars) fun _all_vars => .error .nameError

/-- C3: the positive half of the claim fails on the code: on a valid input of
two samples with the same number of rows the function does not return the sum
of marginal continuous entropies minus the joint continuous entropy but raises
NameError through the undefined name entropy, while fewer than two variables
raise AttributeError as claimed. -/
theorem continuous_mutual_information_nameError :
    continuous_mutual_information [[[0], [1]], [[0], [2]]] 1 = .error .nameError ∧
      continuous_mutual_information [[[0], [1]]] 1 = .error .attributeError := by
  constructor
  · rfl
  · rfl

end Theoc
